import Mathlib

/-!
# Verification of the gemini-cli request/response pipeline

Shallow embedding of the core slice of the repository:

* `gemini_cli/main.py` — `generate_text` (the GenerationClient) and
  `_extract_first_text` (the ResponseExtractor);
* `gemini_cli/cli.py` — the argument validation in `main` (the
  ParameterValidator) and `safe_print` (the TerminalPresenter);
* `gemini_cli/config.py` — the process-wide credential.

Python strings are modelled as `String` (or `List Char` in the text
pipeline), Python `None`-able values as `Option`, Python exceptions as an
explicit outcome type.  Python truthiness of the relevant values (`str`,
`list`, `None`) is modelled explicitly.
-/

namespace GeminiCli

/-! ## Data model of the raw response

`RawResponse` mirrors the shape probed by `_extract_first_text`:
`response.candidates` may be absent/None (`none`) or a list; a candidate's
`content` may be None; `content.parts` may be None or a list; a part may
lack the `text` attribute (outer `none`), carry `text = None`
(`some none`) or carry a string (`some (some s)`).  `prompt_feedback` is
the diagnostic metadata probed by `generate_text`; the spec treats it as
opaque text, so it is modelled as an optional string whose Python
truthiness is "present and non-empty". -/

structure Part where
  text : Option (Option String)
deriving Repr, DecidableEq

structure Content where
  parts : Option (List Part)
deriving Repr, DecidableEq

structure Candidate where
  content : Option Content
deriving Repr, DecidableEq

structure RawResponse where
  candidates : Option (List Candidate)
  prompt_feedback : Option String
deriving Repr, DecidableEq

/-- Python truthiness of an optional list: `None` and `[]` are falsy. -/
def truthyOptList {α : Type} (l : Option (List α)) : Bool :=
  match l with
  | none => false
  | some [] => false
  | some (_ :: _) => true

/-- Python truthiness of an optional string: `None` and `""` are falsy. -/
def truthyOptStr (s : Option String) : Bool :=
  match s with
  | none => false
  | some str => str ≠ ""

/-- Python `x or d` for an optional string `x` (as in `parts[0].text or ""`):
`None` and `""` are falsy, so they yield `d`; any other string is returned
unchanged. -/
def pyOrStr (x : Option String) (d : String) : String :=
  match x with
  | none => d
  | some s => if s = "" then d else s

/-! ## ResponseExtractor: `_extract_first_text`

```python
candidates = getattr(response, "candidates", None)
if not candidates:
    return None
candidate = candidates[0]
content = getattr(candidate, "content", None)
parts = getattr(content, "parts", None) if content else None
if parts and len(parts) > 0 and hasattr(parts[0], "text"):
    return parts[0].text or ""
return None
```

The surrounding `try/except` can never fire in the typed model (every
access here is total), so it has no counterpart. -/

def extractFirstText (response : RawResponse) : Option String :=
  if truthyOptList response.candidates then
    match response.candidates with
    | none => none
    | some [] => none
    | some (candidate :: _) =>
      match candidate.content with
      | none => none
      | some content =>
        match content.parts with
        | none => none
        | some [] => none
        | some (part :: _) =>
          match part.text with
          | none => none                  -- hasattr(parts[0], "text") is False
          | some t => some (pyOrStr t "") -- parts[0].text or ""
  else none

/-! ## GenerationClient: `generate_text`

The remote call is the one effect; it is modelled as a parameter of type
`Except PyExc RawResponse` (either the raised transport/protocol exception
or the returned response).  The full Python control flow is kept: the
missing-key `RuntimeError` is raised before the `try` block, while the two
`ValueError`s raised inside the `try` block are caught by the blanket
`except Exception` and re-raised wrapped in
`RuntimeError(f"Error communicating with Gemini API: {e}")`. -/

/-- A Python exception as observed by the caller: its class and its
`str(e)` message. -/
inductive PyExc where
  /-- `RuntimeError(msg)` -/
  | runtimeError : String → PyExc
  /-- `ValueError(msg)` -/
  | valueError : String → PyExc
  /-- any transport/protocol exception raised by the genai client call,
  with its stringified form -/
  | transport : String → PyExc
deriving Repr, DecidableEq

/-- Python `str(e)` of an exception. -/
def PyExc.msg : PyExc → String
  | .runtimeError m => m
  | .valueError m => m
  | .transport m => m

/-- Outcome of a Python call: a returned value or a raised exception. -/
inductive PyOutcome (α : Type) where
  | ret : α → PyOutcome α
  | raised : PyExc → PyOutcome α
deriving Repr, DecidableEq

/-- The observable trace of one `generate_text` call: its outcome plus
whether a `Client` was constructed and whether the network call was
issued. -/
structure GenTrace where
  outcome : PyOutcome String
  clientConstructed : Bool
  networkCalled : Bool
deriving Repr, DecidableEq

/-- The message of the `RuntimeError` raised when the key is missing. -/
def configErrorMsg : String :=
  "API key is not configured. Please set GOOGLE_API_KEY in your config."

/-- The prefix the blanket `except Exception` handler puts in front of the
stringified cause. -/
def wrapMsg (cause : String) : String :=
  "Error communicating with Gemini API: " ++ cause

/-- `generate_text`, parameterised by the process-wide credential
(`GOOGLE_API_KEY`, `none` when the variable is absent from the
environment) and by the outcome of the remote call. -/
def generate_text (apiKey : Option String)
    (call : Except PyExc RawResponse) : GenTrace :=
  if ¬ truthyOptStr apiKey then
    -- `if not GOOGLE_API_KEY: raise RuntimeError(...)` — before the try block
    { outcome := .raised (.runtimeError configErrorMsg)
      clientConstructed := false
      networkCalled := false }
  else
    match call with
    | .error e =>
      -- exception during the call, caught and wrapped
      { outcome := .raised (.runtimeError (wrapMsg e.msg))
        clientConstructed := true
        networkCalled := true }
    | .ok response =>
      match extractFirstText response with
      | some text =>
        { outcome := .ret text
          clientConstructed := true
          networkCalled := true }
      | none =>
        if truthyOptStr response.prompt_feedback then
          -- `raise ValueError(f"Generation failed: {response.prompt_feedback}")`
          -- is raised inside the try block, caught by `except Exception`,
          -- and re-raised wrapped in the RuntimeError
          { outcome := .raised (.runtimeError (wrapMsg
              ("Generation failed: " ++
                (response.prompt_feedback.getD ""))))
            clientConstructed := true
            networkCalled := true }
        else
          -- `raise ValueError("Generation failed: no content returned by the API.")`
          -- likewise caught and wrapped
          { outcome := .raised (.runtimeError (wrapMsg
              "Generation failed: no content returned by the API."))
            clientConstructed := true
            networkCalled := true }

/-! ## ParameterValidator and the CLI gate (`cli.main`)

```python
if not (0.0 <= args.temperature <= 2.0):
    print(...); sys.exit(1)
if args.max_output <= 0:
    print(...); sys.exit(1)
...
response_text = generate_text(...)
```

The temperature is a Python float compared against the exact constants
`0.0` and `2.0` with no intervening arithmetic, so it is modelled as a
rational; `max_output` is a Python int, modelled as `Int`. -/

/-- Observable outcome of one CLI invocation: the exit code, whether the
run stopped at argument validation, and whether the network call was
issued. -/
structure CliOutcome where
  exitCode : Nat
  failedValidation : Bool
  networkCalled : Bool
deriving Repr, DecidableEq

/-- The validation-and-generation path of `cli.main`, parameterised by the
trace the `generate_text` call would produce if reached. -/
def cliMain (temperature : ℚ) (maxOutput : ℤ) (gen : GenTrace) : CliOutcome :=
  if ¬ (0 ≤ temperature ∧ temperature ≤ 2) then
    { exitCode := 1, failedValidation := true, networkCalled := false }
  else if maxOutput ≤ 0 then
    { exitCode := 1, failedValidation := true, networkCalled := false }
  else
    match gen.outcome with
    | .ret _ => { exitCode := 0, failedValidation := false
                  networkCalled := gen.networkCalled }
    | .raised _ => { exitCode := 1, failedValidation := false
                     networkCalled := gen.networkCalled }

/-! ## Truncation to the first candidate / first part (for claim C5) -/

/-- Keep only the first part of a candidate's content. -/
def truncCandidate (c : Candidate) : Candidate :=
  { content := c.content.map (fun ct => { parts := ct.parts.map (fun ps => ps.take 1) }) }

/-- Keep only the first candidate and its first part of a response. -/
def firstOnly (r : RawResponse) : RawResponse :=
  { r with candidates := r.candidates.map (fun cs => (cs.take 1).map truncCandidate) }

/-- A sample generation trace used to instantiate CLI-level statements. -/
def sampleTrace : GenTrace :=
  { outcome := .ret "x", clientConstructed := true, networkCalled := true }

/-! ## TerminalPresenter: `safe_print`

```python
wrapper = textwrap.TextWrapper(width=width, break_long_words=False,
                               break_on_hyphens=False)

def pad_long_words(s: str) -> str:
    parts = []
    for word in s.split():
        if len(word) > width:
            parts.append(word + " " * (width - len(word)))
        else:
            parts.append(word)
    return " ".join(parts)

padded = pad_long_words(text)
lines = wrapper.wrap(padded)
for line in lines:
    print(line)
```

Text is modelled as `List Char`.  Python's whitespace class is modelled by
its ASCII members (space, tab, newline, carriage return, vertical tab,
form feed), which both `str.split` and the `\s` of the wrapper's
chunking regular expression agree on.

The `textwrap` machinery is embedded for exactly the configuration used
here: `break_long_words=False`, `break_on_hyphens=False`, and the defaults
`expand_tabs=True` (tab size 8), `replace_whitespace=True`,
`drop_whitespace=True`, empty indents, `max_lines=None`.
`TextWrapper._wrap_chunks` raises `ValueError` when `width <= 0`, so the
presenter as a whole returns `none` for width 0. -/

/-- Python's (ASCII) whitespace class. -/
def pyWs (c : Char) : Bool :=
  c == ' ' || c == '\t' || c == '\n' || c == '\r' ||
    c == Char.ofNat 11 || c == Char.ofNat 12

/-- Accumulator worker for `str.split()` (split on whitespace runs,
dropping empty pieces); `acc` holds the current word reversed. -/
def splitWsAux : List Char → List Char → List (List Char)
  | [], acc => if acc = [] then [] else [acc.reverse]
  | c :: cs, acc =>
    if pyWs c then
      if acc = [] then splitWsAux cs [] else acc.reverse :: splitWsAux cs []
    else splitWsAux cs (c :: acc)

/-- Python `text.split()` with no separator argument. -/
def splitWs (l : List Char) : List (List Char) :=
  splitWsAux l []

/-- Python `" ".join(words)`. -/
def joinSp : List (List Char) → List Char
  | [] => []
  | [w] => w
  | w :: ws => w ++ ' ' :: joinSp ws

/-- The printed output of consecutive `print(line)` calls, concatenated:
the lines separated by newlines. -/
def joinLines : List (List Char) → List Char
  | [] => []
  | [l] => l
  | l :: ls => l ++ '\n' :: joinLines ls

/-- Python `" " * n` for an `int` multiplier: a negative or zero
multiplier yields the empty string. -/
def pyStrMulSpace (n : Int) : List Char :=
  List.replicate n.toNat ' '

/-- The `pad_long_words` preprocessing of `safe_print`: each word strictly
longer than the width gets `" " * (width - len(word))` appended — a
negative multiplier, hence nothing. -/
def padLongWords (width : Nat) (words : List (List Char)) : List (List Char) :=
  words.map (fun w =>
    if width < w.length then w ++ pyStrMulSpace ((width : Int) - (w.length : Int)) else w)

/-- Python `str.expandtabs(tabsize)` (first step of
`TextWrapper._munge_whitespace`): each tab becomes spaces up to the next
tab stop; newline and carriage return reset the column. -/
def expandTabs (tabsize : Nat) : List Char → Nat → List Char
  | [], _ => []
  | c :: cs, col =>
    if c = '\t' then
      (if 0 < tabsize then List.replicate (tabsize - col % tabsize) ' ' else []) ++
        expandTabs tabsize cs (if 0 < tabsize then col + (tabsize - col % tabsize) else col)
    else if c = '\n' ∨ c = '\r' then c :: expandTabs tabsize cs 0
    else c :: expandTabs tabsize cs (col + 1)

/-- The `replace_whitespace` translation of `_munge_whitespace`: every
whitespace character becomes a single space. -/
def replaceWs (l : List Char) : List Char :=
  l.map (fun c => if pyWs c then ' ' else c)

/-- Worker for `runs`: `cls` is the whitespace class of the current run,
`acc` the current run reversed. -/
def runsAux (cls : Bool) (acc : List Char) : List Char → List (List Char)
  | [] => [acc.reverse]
  | c :: cs =>
    if pyWs c = cls then runsAux cls (c :: acc) cs
    else acc.reverse :: runsAux (pyWs c) [c] cs

/-- `TextWrapper._split` with `break_on_hyphens=False`: the text cut into
maximal runs of whitespace / non-whitespace characters (the chunks), with
no empty chunks. -/
def runs : List Char → List (List Char)
  | [] => []
  | c :: cs => runsAux (pyWs c) [c] cs

/-- Python `chunk.strip() == ''`: the chunk is all whitespace. -/
def isWsChunk (l : List Char) : Bool :=
  l.all pyWs

/-- The inner `while` of `_wrap_chunks`: greedily move chunks onto the
current line while the accumulated length stays within the width. -/
def takeFit (width : Nat) (curLen : Nat) : List (List Char) → List (List Char) × List (List Char)
  | [] => ([], [])
  | c :: cs =>
    if curLen + c.length ≤ width then
      let p := takeFit width (curLen + c.length) cs
      (c :: p.1, p.2)
    else ([], c :: cs)

/-- `_handle_long_word` with `break_long_words=False`, guarded as in
`_wrap_chunks`: when the next chunk is longer than the width and the
current line is still empty, put the whole chunk on the line. -/
def handleLong (width : Nat) (cur rest : List (List Char)) :
    List (List Char) × List (List Char) :=
  match rest with
  | [] => (cur, [])
  | c :: cs => if width < c.length ∧ cur = [] then ([c], cs) else (cur, c :: cs)

/-- The `drop_whitespace` removal of a trailing all-whitespace chunk from
the current line. -/
def dropTrailingWs (cur : List (List Char)) : List (List Char) :=
  match cur.getLast? with
  | none => []
  | some l => if isWsChunk l then cur.dropLast else cur

/-- One iteration body of the outer `while` of `_wrap_chunks` (after the
leading-whitespace drop): returns the chunks of the produced line (possibly
none) and the remaining chunks. -/
def wrapIter (width : Nat) (chunks : List (List Char)) :
    List (List Char) × List (List Char) :=
  let p := takeFit width 0 chunks
  let q := handleLong width p.1 p.2
  (dropTrailingWs q.1, q.2)

/-- The outer `while` of `_wrap_chunks`: `linesNE` records whether a line
has already been emitted (Python's `lines` being non-empty), which gates
the drop of a leading whitespace chunk. -/
def wrapChunks (width : Nat) (linesNE : Bool) (chunks : List (List Char)) :
    List (List Char) :=
  match chunks with
  | [] => []
  | c :: cs =>
    let chunks1 := if linesNE && isWsChunk c then cs else c :: cs
    let r := wrapIter width chunks1
    if r.1 = [] then wrapChunks width linesNE r.2
    else r.1.flatten :: wrapChunks width true r.2
termination_by chunks.length
decreasing_by
  all_goals
    simp_wf
    have htake : ∀ (l : List (List Char)) (n : Nat),
        (takeFit width n l).2.length ≤ l.length := by
      intro l
      induction l with
      | nil => intro _; simp [takeFit]
      | cons x xs ih =>
        intro n
        by_cases hfit : n + x.length ≤ width
        · simpa [takeFit, hfit] using Nat.le_succ_of_le (ih (n + x.length))
        · simp [takeFit, hfit]
    have hhandle : ∀ (cur rest : List (List Char)),
        (handleLong width cur rest).2.length ≤ rest.length := by
      intro cur rest
      cases rest with
      | nil => simp [handleLong]
      | cons x xs =>
        by_cases hlw : width < x.length ∧ cur = []
        · simp [handleLong, hlw]
        · simp [handleLong, hlw]
    have hiter : ∀ (x : List Char) (xs : List (List Char)),
        (wrapIter width (x :: xs)).2.length ≤ xs.length := by
      intro x xs
      by_cases hfit : 0 + x.length ≤ width
      · have h2 := hhandle (x :: (takeFit width (0 + x.length) xs).1)
          (takeFit width (0 + x.length) xs).2
        have h3 := htake xs (0 + x.length)
        simp only [wrapIter, takeFit, hfit, if_true]
        omega
      · have hlw : width < x.length := by omega
        have hfit2 : ¬ x.length ≤ width := by omega
        simp [wrapIter, takeFit, hfit2, handleLong, hlw]
    split
    · cases cs with
      | nil => simp [wrapIter, takeFit, handleLong, dropTrailingWs]
      | cons d ds =>
        have hd := hiter d ds
        simp only [List.length_cons]
        omega
    · have hc := hiter c cs
      omega

/-- The word-level greedy take: starting a line whose content so far has
length `curLen`, take further words while they fit together with their
separating space. -/
def fitWords (width curLen : Nat) : List (List Char) → List (List Char) × List (List Char)
  | [] => ([], [])
  | w :: ws =>
    if curLen + 1 + w.length ≤ width then
      let p := fitWords width (curLen + 1 + w.length) ws
      (w :: p.1, p.2)
    else ([], w :: ws)

/-- Word-level greedy line partition: the specification `wrapChunks`
refines when fed space-separated words. -/
def greedyPartition (width : Nat) (ws0 : List (List Char)) : List (List (List Char)) :=
  match ws0 with
  | [] => []
  | w :: ws =>
    (w :: (fitWords width w.length ws).1) :: greedyPartition width (fitWords width w.length ws).2
termination_by ws0.length
decreasing_by
  simp_wf
  have hfit : ∀ (l : List (List Char)) (n : Nat),
      (fitWords width n l).2.length ≤ l.length := by
    intro l
    induction l with
    | nil => intro _; simp [fitWords]
    | cons x xs ih =>
      intro n
      by_cases hx : n + 1 + x.length ≤ width
      · simpa [fitWords, hx] using Nat.le_succ_of_le (ih (n + 1 + x.length))
      · simp [fitWords, hx]
  exact Nat.lt_succ_of_le (hfit _ _)

/-- The chunk list `[w1, " ", w2, " ", ..., wn]` the splitter produces
from space-joined words. -/
def spaced : List (List Char) → List (List Char)
  | [] => []
  | [w] => [w]
  | w :: ws => w :: [' '] :: spaced ws

/-- `safe_print`, parameterised by the terminal width; the list of printed
lines, or `none` for width 0 (where `TextWrapper.wrap` raises
`ValueError("invalid width ...")`). -/
def safePrintLines (width : Nat) (text : List Char) : Option (List (List Char)) :=
  if width = 0 then none
  else
    some (wrapChunks width false
      (runs (replaceWs (expandTabs 8 (joinSp (padLongWords width (splitWs text))) 0))))

/-- A word is usable in the joined/chunked correspondence: non-empty and
free of whitespace. -/
def goodWord (w : List Char) : Prop :=
  w ≠ [] ∧ ∀ c ∈ w, pyWs c = false

/-- All words of the list are good. -/
def goodWords (ws : List (List Char)) : Prop :=
  ∀ w ∈ ws, goodWord w

/-- The chunks occupied by the words a line takes beyond its first word:
each word preceded by its separating space chunk, plus a trailing
separator alone when the inner loop consumed it before stopping. -/
def chunksOfTaken (tw : List (List Char)) (extraSp : Bool) : List (List Char) :=
  (tw.flatMap (fun v => [[' '], v])) ++ (if extraSp then [[' ']] else [])

/-- `spaced ws` preceded by its separating space chunk (empty when there
are no words): the tail shape of a chunk list between lines. -/
def sepSp (ws : List (List Char)) : List (List Char) :=
  match ws with
  | [] => []
  | _ :: _ => [' '] :: spaced ws

end GeminiCli

namespace GeminiCli

/-! ## Lemmas about the splitter and the whitespace-identity of munging -/

theorem goodWord_not_wsChunk {w : List Char} (h : goodWord w) : isWsChunk w = false := by
  obtain ⟨hne, hch⟩ := h
  cases w with
  | nil => exact absurd rfl hne
  | cons c cs =>
    simp only [isWsChunk, List.all_cons, Bool.and_eq_false_iff]
    exact Or.inl (hch c (by simp))

theorem splitWsAux_nonws_prefix {w : List Char} (hw : ∀ c ∈ w, pyWs c = false) :
    ∀ (l acc : List Char), splitWsAux (w ++ l) acc = splitWsAux l (w.reverse ++ acc) := by
  induction w with
  | nil => intro l acc; simp
  | cons c cs ih =>
    intro l acc
    have hc : pyWs c = false := hw c (by simp)
    have hcs : ∀ x ∈ cs, pyWs x = false := fun x hx => hw x (by simp [hx])
    simp only [List.cons_append, splitWsAux, hc, Bool.false_eq_true, if_false]
    show splitWsAux (cs ++ l) (c :: acc) = splitWsAux l ((c :: cs).reverse ++ acc)
    rw [ih hcs]
    simp

theorem goodWords_splitWsAux :
    ∀ (l acc : List Char), (∀ c ∈ acc, pyWs c = false) →
      goodWords (splitWsAux l acc) := by
  intro l
  induction l with
  | nil =>
    intro acc hacc
    by_cases h : acc = []
    · simp [splitWsAux, h, goodWords]
    · simp only [splitWsAux, h, if_false]
      intro w hw
      simp only [List.mem_singleton] at hw
      subst hw
      refine ⟨by simpa using h, fun c hc => hacc c (by simpa using hc)⟩
  | cons c cs ih =>
    intro acc hacc
    by_cases hc : pyWs c = true
    · by_cases h : acc = []
      · simpa [splitWsAux, hc, h] using ih [] (by simp)
      · simp only [splitWsAux, hc, if_true, h, if_false]
        intro w hw
        rcases List.mem_cons.mp hw with hw | hw
        · subst hw
          refine ⟨by simpa using h, fun x hx => hacc x (by simpa using hx)⟩
        · exact ih [] (by simp) w hw
    · have hc' : pyWs c = false := by simpa using hc
      simp only [splitWsAux, hc', Bool.false_eq_true, if_false]
      refine ih (c :: acc) ?_
      intro x hx
      rcases List.mem_cons.mp hx with hx | hx
      · subst hx; exact hc'
      · exact hacc x hx

theorem goodWords_splitWs (l : List Char) : goodWords (splitWs l) :=
  goodWords_splitWsAux l [] (by simp)

theorem splitWs_joinSp {ws : List (List Char)} (h : goodWords ws) :
    splitWs (joinSp ws) = ws := by
  induction ws with
  | nil => rfl
  | cons w ws ih =>
    have hw : goodWord w := h w (by simp)
    have hws : goodWords ws := fun v hv => h v (by simp [hv])
    cases ws with
    | nil =>
      show splitWsAux (joinSp [w]) [] = [w]
      have : joinSp [w] = w ++ [] := by simp [joinSp]
      rw [this, splitWsAux_nonws_prefix hw.2]
      simp [splitWsAux, hw.1]
    | cons v vs =>
      show splitWsAux (joinSp (w :: v :: vs)) [] = w :: v :: vs
      have hj : joinSp (w :: v :: vs) = w ++ ' ' :: joinSp (v :: vs) := rfl
      rw [hj, splitWsAux_nonws_prefix hw.2]
      have hsp : pyWs ' ' = true := rfl
      have hne : ¬ (w.reverse ++ [] = []) := by simpa using hw.1
      simp only [splitWsAux, hsp, if_true, hne, if_false]
      rw [show (w.reverse ++ [] : List Char).reverse = w by simp]
      exact congrArg (w :: ·) (ih hws)

theorem splitWsAux_append_ws {ch : Char} (hch : pyWs ch = true) (b : List Char) :
    ∀ (a acc : List Char),
      splitWsAux (a ++ ch :: b) acc = splitWsAux a acc ++ splitWsAux b [] := by
  intro a
  induction a with
  | nil =>
    intro acc
    by_cases h : acc = []
    · simp [splitWsAux, hch, h]
    · simp [splitWsAux, hch, h]
  | cons x a ih =>
    intro acc
    by_cases hx : pyWs x = true
    · by_cases h : acc = []
      · simp [splitWsAux, hx, h, ih]
      · simp [splitWsAux, hx, h, ih]
    · have hx' : pyWs x = false := by simpa using hx
      simp [splitWsAux, hx', ih]

theorem splitWs_joinLines (ls : List (List Char)) :
    splitWs (joinLines ls) = (ls.map splitWs).flatten := by
  induction ls with
  | nil => rfl
  | cons l ls ih =>
    cases ls with
    | nil => simp [joinLines, splitWs]
    | cons l2 ls2 =>
      have hj : joinLines (l :: l2 :: ls2) = l ++ '\n' :: joinLines (l2 :: ls2) := rfl
      show splitWs (joinLines (l :: l2 :: ls2)) = _
      rw [hj]
      show splitWsAux (l ++ '\n' :: joinLines (l2 :: ls2)) [] = _
      rw [splitWsAux_append_ws (by rfl) _ l []]
      simp only [List.map_cons, List.flatten_cons]
      exact congrArg (splitWsAux l [] ++ ·) ih

theorem padLongWords_id (width : Nat) (ws : List (List Char)) :
    padLongWords width ws = ws := by
  simp only [padLongWords]
  induction ws with
  | nil => rfl
  | cons w ws ih =>
    simp only [List.map_cons, ih]
    by_cases h : width < w.length
    · have hz : ((width : Int) - (w.length : Int)).toNat = 0 := by omega
      simp [h, pyStrMulSpace, hz]
    · simp [h]

theorem expandTabs_id {l : List Char} (h : ∀ c ∈ l, c ≠ '\t') :
    ∀ (ts col : Nat), expandTabs ts l col = l := by
  induction l with
  | nil => intro ts col; rfl
  | cons c cs ih =>
    intro ts col
    have hc : c ≠ '\t' := h c (by simp)
    have hcs : ∀ x ∈ cs, x ≠ '\t' := fun x hx => h x (by simp [hx])
    by_cases hnl : c = '\n' ∨ c = '\r'
    · simp [expandTabs, hc, hnl, ih hcs]
    · simp [expandTabs, hc, hnl, ih hcs]

theorem replaceWs_id {l : List Char} (h : ∀ c ∈ l, pyWs c = false ∨ c = ' ') :
    replaceWs l = l := by
  simp only [replaceWs]
  induction l with
  | nil => rfl
  | cons c cs ih =>
    have hc := h c (by simp)
    have hcs : ∀ x ∈ cs, pyWs x = false ∨ x = ' ' := fun x hx => h x (by simp [hx])
    rcases hc with hc | hc
    · simp [hc, ih hcs]
    · subst hc
      simp [ih hcs]

theorem chars_joinSp {ws : List (List Char)} (h : goodWords ws) :
    ∀ c ∈ joinSp ws, pyWs c = false ∨ c = ' ' := by
  induction ws with
  | nil => intro c hc; simp [joinSp] at hc
  | cons w ws ih =>
    have hw : goodWord w := h w (by simp)
    have hws : goodWords ws := fun v hv => h v (by simp [hv])
    cases ws with
    | nil =>
      intro c hc
      exact Or.inl (hw.2 c (by simpa [joinSp] using hc))
    | cons v vs =>
      intro c hc
      have hj : joinSp (w :: v :: vs) = w ++ ' ' :: joinSp (v :: vs) := rfl
      rw [hj] at hc
      rcases List.mem_append.mp hc with hc | hc
      · exact Or.inl (hw.2 c hc)
      · rcases List.mem_cons.mp hc with hc | hc
        · exact Or.inr hc
        · exact ih hws c hc

end GeminiCli

namespace GeminiCli

/-! ## Theorems about the extractor and the generation client -/

/-- C4: `_extract_first_text` is total — its result is always either
nothing or a string — and it returns nothing for each of the degenerate
shapes: `candidates = None`, `candidates = []`,
`candidates[0].content = None`, `content.parts = None`,
`content.parts = []`, and `parts[0]` lacking a `text` attribute. -/
theorem extract_total_and_degenerate_shapes :
    (∀ r : RawResponse, extractFirstText r = none ∨ ∃ s, extractFirstText r = some s) ∧
    (∀ fb, extractFirstText ⟨none, fb⟩ = none) ∧
    (∀ fb, extractFirstText ⟨some [], fb⟩ = none) ∧
    (∀ fb rest, extractFirstText ⟨some ({ content := none } :: rest), fb⟩ = none) ∧
    (∀ fb rest, extractFirstText ⟨some ({ content := some ⟨none⟩ } :: rest), fb⟩ = none) ∧
    (∀ fb rest, extractFirstText ⟨some ({ content := some ⟨some []⟩ } :: rest), fb⟩ = none) ∧
    (∀ fb rest ps,
      extractFirstText
        ⟨some ({ content := some ⟨some ({ text := none } :: ps)⟩ } :: rest), fb⟩ = none) := by
  refine ⟨fun r => ?_, fun fb => rfl, fun fb => rfl, fun fb rest => rfl,
    fun fb rest => rfl, fun fb rest => rfl, fun fb rest ps => rfl⟩
  cases h : extractFirstText r with
  | none => exact Or.inl rfl
  | some s => exact Or.inr ⟨s, rfl⟩

/-- C5: when the first candidate's content has a first part carrying a
`text` attribute with a string value, the extractor returns that string
verbatim (the empty string comes back as `some ""`, distinct from `none`),
and the result depends only on the first candidate and its first part:
truncating every other candidate and part never changes it. -/
theorem extract_first_verbatim_and_first_only :
    (∀ r : RawResponse, extractFirstText r = extractFirstText (firstOnly r)) ∧
    (∀ fb rest ps s,
      extractFirstText
        ⟨some ({ content := some ⟨some ({ text := some (some s) } :: ps)⟩ } :: rest), fb⟩
        = some s) ∧
    (∀ fb rest ps,
      extractFirstText
        ⟨some ({ content := some ⟨some ({ text := some (some "") } :: ps)⟩ } :: rest), fb⟩
        = some "" ∧
      extractFirstText
        ⟨some ({ content := some ⟨some ({ text := some (some "") } :: ps)⟩ } :: rest), fb⟩
        ≠ none) := by
  refine ⟨fun r => ?_, fun fb rest ps s => ?_,
    fun fb rest ps => ⟨?_, by simp [extractFirstText, truthyOptList, pyOrStr]⟩⟩
  · rcases r with ⟨cands, fb⟩
    cases cands with
    | none => rfl
    | some cs =>
      cases cs with
      | nil => rfl
      | cons c cs' =>
        rcases c with ⟨ct⟩
        cases ct with
        | none => rfl
        | some content =>
          rcases content with ⟨ps⟩
          cases ps with
          | none => rfl
          | some parts =>
            cases parts with
            | nil => rfl
            | cons p parts' => rfl
  · simp only [extractFirstText, truthyOptList, pyOrStr]
    by_cases h : s = "" <;> simp [h]
  · simp [extractFirstText, truthyOptList, pyOrStr]

/-- C8: a first part whose `text` attribute is present but `None` makes the
extractor return the empty string (not nothing) — `parts[0].text or ""`
turns `None` into `""` — and `generate_text` then reports the response as a
successful generation returning `""` rather than as an empty-result
failure. -/
theorem extract_none_text_gives_empty (fb : Option String) (rest : List Candidate)
    (ps : List Part) (apiKey : Option String) (hkey : truthyOptStr apiKey = true) :
    extractFirstText
      ⟨some ({ content := some ⟨some ({ text := some none } :: ps)⟩ } :: rest), fb⟩
      = some "" ∧
    generate_text apiKey
      (.ok ⟨some ({ content := some ⟨some ({ text := some none } :: ps)⟩ } :: rest), fb⟩)
      = { outcome := .ret "", clientConstructed := true, networkCalled := true } := by
  constructor
  · rfl
  · simp [generate_text, hkey, extractFirstText, truthyOptList, pyOrStr]

/-- C8 witness: instantiation at a concrete response and key. -/
theorem extract_none_text_gives_empty_witness :
    truthyOptStr (some "k") = true ∧
    generate_text (some "k")
      (.ok ⟨some ({ content := some ⟨some ({ text := some none } :: [])⟩ } :: []), none⟩)
      = { outcome := .ret "", clientConstructed := true, networkCalled := true } :=
  ⟨by decide, (extract_none_text_gives_empty none [] [] (some "k") (by decide)).2⟩

/-- C3: a call with the credential absent returns the `ConfigError`
failure — a `RuntimeError` whose message starts with
"API key is not configured" — without constructing a client or issuing the
network call, and the message is the bare configuration message, never the
"Error communicating with Gemini API: ..." wrapper used for the other
failure kinds. -/
theorem generate_missing_key_config_error (call : Except PyExc RawResponse) :
    generate_text none call =
      { outcome := .raised (.runtimeError configErrorMsg)
        clientConstructed := false
        networkCalled := false } ∧
    configErrorMsg =
      "API key is not configured" ++ ". Please set GOOGLE_API_KEY in your config." ∧
    ∀ cause : String, configErrorMsg ≠ wrapMsg cause := by
  refine ⟨rfl, by decide, fun cause h => ?_⟩
  have h2 : configErrorMsg.data.head? =
      ("Error communicating with Gemini API: ".data ++ cause.data).head? := by
    have h3 : (wrapMsg cause).data =
        "Error communicating with Gemini API: ".data ++ cause.data := rfl
    rw [← h3, ← h]
  have hA : configErrorMsg.data.head? = some 'A' := rfl
  have hE : ("Error communicating with Gemini API: ".data ++ cause.data).head? =
      some 'E' := rfl
  rw [hA, hE] at h2
  exact absurd h2 (by decide)

/-- C9: a credential present in the environment but equal to the empty
string is falsy in `if not GOOGLE_API_KEY`, so it is treated exactly like
an absent credential: the same `ConfigError` failure trace, with no client
constructed and no network call. -/
theorem generate_empty_key_like_missing (call : Except PyExc RawResponse) :
    generate_text (some "") call = generate_text none call ∧
    generate_text (some "") call =
      { outcome := .raised (.runtimeError configErrorMsg)
        clientConstructed := false
        networkCalled := false } := by
  exact ⟨rfl, rfl⟩

/-- C1: the code raises the two no-content `ValueError`s inside the `try`
block, so the blanket `except Exception` catches them and re-raises them
wrapped in the same `RuntimeError("Error communicating with Gemini API:
...")` used for transport failures.  At the failing inputs (a usable key
and a response with no candidates) the outcome is that wrapper `RuntimeError`
— with the feedback-derived detail when non-empty prompt feedback is
present and the generic detail when none is — not a distinct
`EmptyResult`/`ContentBlocked` kind (the function's own docstring promises
`ValueError` for "no usable content", which can never escape). -/
theorem generate_no_content_wrapped_as_transport :
    generate_text (some "key") (.ok ⟨none, none⟩) =
      { outcome := .raised (.runtimeError
          (wrapMsg "Generation failed: no content returned by the API."))
        clientConstructed := true
        networkCalled := true } ∧
    generate_text (some "key") (.ok ⟨none, some "safety-block"⟩) =
      { outcome := .raised (.runtimeError
          (wrapMsg ("Generation failed: " ++ "safety-block")))
        clientConstructed := true
        networkCalled := true } ∧
    generate_text (some "key") (.error (.transport "boom")) =
      { outcome := .raised (.runtimeError (wrapMsg "boom"))
        clientConstructed := true
        networkCalled := true } := by
  refine ⟨?_, ?_, ?_⟩ <;> rfl

/-- C6: the CLI argument gate succeeds exactly when the temperature lies in
the closed interval [0, 2] and the maximum output token count is positive;
when it fails, the process exits with code 1 before the generation call, so
no network call is made. -/
theorem cliMain_validation_iff (t : ℚ) (m : ℤ) (gen : GenTrace) :
    ((cliMain t m gen).failedValidation = false ↔ (0 ≤ t ∧ t ≤ 2 ∧ 0 < m)) ∧
    ((cliMain t m gen).failedValidation = true →
      (cliMain t m gen).networkCalled = false ∧ (cliMain t m gen).exitCode = 1) := by
  obtain ⟨o, cc, nc⟩ := gen
  by_cases h1 : 0 ≤ t ∧ t ≤ 2
  · by_cases h2 : m ≤ 0
    · have hc : cliMain t m ⟨o, cc, nc⟩ =
        { exitCode := 1, failedValidation := true, networkCalled := false } := by
        simp [cliMain, h1, h2]
      rw [hc]
      exact ⟨⟨fun hf => by simp at hf, fun hr => absurd hr.2.2 (by omega)⟩,
        fun _ => ⟨rfl, rfl⟩⟩
    · cases o with
      | ret s =>
        have hc : cliMain t m ⟨.ret s, cc, nc⟩ =
          { exitCode := 0, failedValidation := false, networkCalled := nc } := by
          simp [cliMain, h1, h2]
        rw [hc]
        exact ⟨⟨fun _ => ⟨h1.1, h1.2, by omega⟩, fun _ => rfl⟩, fun hf => by simp at hf⟩
      | raised e =>
        have hc : cliMain t m ⟨.raised e, cc, nc⟩ =
          { exitCode := 1, failedValidation := false, networkCalled := nc } := by
          simp [cliMain, h1, h2]
        rw [hc]
        exact ⟨⟨fun _ => ⟨h1.1, h1.2, by omega⟩, fun _ => rfl⟩, fun hf => by simp at hf⟩
  · have hc : cliMain t m ⟨o, cc, nc⟩ =
      { exitCode := 1, failedValidation := true, networkCalled := false } := by
      simp [cliMain, h1]
    rw [hc]
    exact ⟨⟨fun hf => by simp at hf, fun hr => absurd ⟨hr.1, hr.2.1⟩ h1⟩,
      fun _ => ⟨rfl, rfl⟩⟩

/-- C6 witness: at temperature 3 (out of range) the gate fails, makes no
network call and exits 1; at temperature 1 and 5 tokens it passes. -/
theorem cliMain_validation_iff_witness :
    ((cliMain 3 5 sampleTrace).networkCalled = false ∧
     (cliMain 3 5 sampleTrace).exitCode = 1) ∧
    ((cliMain 1 5 sampleTrace).failedValidation = false ↔
      ((0:ℚ) ≤ 1 ∧ (1:ℚ) ≤ 2 ∧ (0:ℤ) < 5)) :=
  ⟨(cliMain_validation_iff 3 5 sampleTrace).2 (by decide),
   (cliMain_validation_iff 1 5 sampleTrace).1⟩

end GeminiCli

namespace GeminiCli

/-! ## Lemmas about the chunker (`runs`) on space-joined words -/

theorem joinSp_cons (w : List Char) (ws : List (List Char)) :
    joinSp (w :: ws) = w ++ (if ws.isEmpty then [] else ' ' :: joinSp ws) := by
  cases ws <;> simp [joinSp]

theorem spaced_cons (w : List Char) (ws : List (List Char)) :
    spaced (w :: ws) = w :: sepSp ws := by
  cases ws <;> rfl

theorem runsAux_nonws {w : List Char} (hw : ∀ c ∈ w, pyWs c = false) :
    ∀ (rest acc : List Char),
      runsAux false acc (w ++ rest) = runsAux false (w.reverse ++ acc) rest := by
  induction w with
  | nil => intro rest acc; simp
  | cons c cs ih =>
    intro rest acc
    have hc : pyWs c = false := hw c (by simp)
    have hcs : ∀ x ∈ cs, pyWs x = false := fun x hx => hw x (by simp [hx])
    simp only [List.cons_append, runsAux, hc, if_true]
    show runsAux false (c :: acc) (cs ++ rest) = runsAux false ((c :: cs).reverse ++ acc) rest
    rw [ih hcs]
    simp

theorem runsAux_nonws_all {w : List Char} (hw : ∀ c ∈ w, pyWs c = false) (acc : List Char) :
    runsAux false acc w = [acc.reverse ++ w] := by
  have h1 : runsAux false acc (w ++ []) = runsAux false (w.reverse ++ acc) [] :=
    runsAux_nonws hw [] acc
  rw [List.append_nil] at h1
  rw [h1]
  simp [runsAux]

theorem runsAux_true_sp (d : Char) (tail : List Char) (hd : pyWs d = false) :
    runsAux true [' '] (d :: tail) = [' '] :: runsAux false [d] tail := by
  simp [runsAux, hd]

theorem runs_joinSp {ws : List (List Char)} (h : goodWords ws) :
    runs (joinSp ws) = spaced ws := by
  induction ws with
  | nil => rfl
  | cons w ws ih =>
    have hw : goodWord w := h w (by simp)
    have hws : goodWords ws := fun v hv => h v (by simp [hv])
    obtain ⟨hne, hch⟩ := hw
    cases w with
    | nil => exact absurd rfl hne
    | cons c cw =>
      have hc : pyWs c = false := hch c (by simp)
      have hcw : ∀ x ∈ cw, pyWs x = false := fun x hx => hch x (by simp [hx])
      cases ws with
      | nil =>
        show runs (joinSp [c :: cw]) = spaced [c :: cw]
        have hj : joinSp [c :: cw] = c :: cw := rfl
        rw [hj]
        show runsAux (pyWs c) [c] cw = [c :: cw]
        rw [hc, runsAux_nonws_all hcw]
        simp
      | cons v vs =>
        have hv : goodWord v := hws v (by simp)
        obtain ⟨d, v', hvd⟩ : ∃ d v', v = d :: v' := by
          cases hx : v with
          | nil => exact absurd hx hv.1
          | cons d v' => exact ⟨d, v', rfl⟩
        have hd : pyWs d = false := hv.2 d (by simp [hvd])
        have hj : joinSp ((c :: cw) :: v :: vs) = (c :: cw) ++ ' ' :: joinSp (v :: vs) := rfl
        show runs (joinSp ((c :: cw) :: v :: vs)) = spaced ((c :: cw) :: v :: vs)
        rw [hj]
        show runsAux (pyWs c) [c] (cw ++ ' ' :: joinSp (v :: vs)) =
          spaced ((c :: cw) :: v :: vs)
        rw [hc, runsAux_nonws hcw]
        have hsp1 : runsAux false (cw.reverse ++ [c]) (' ' :: joinSp (v :: vs)) =
            (cw.reverse ++ [c]).reverse :: runsAux true [' '] (joinSp (v :: vs)) := by
          simp [runsAux, pyWs]
        rw [hsp1]
        obtain ⟨tail, htail⟩ : ∃ tail, joinSp (v :: vs) = d :: tail := by
          rw [joinSp_cons, hvd]
          exact ⟨v' ++ (if vs.isEmpty then [] else ' ' :: joinSp vs), rfl⟩
        have hruns : runs (joinSp (v :: vs)) = runsAux false [d] tail := by
          rw [htail]
          show runsAux (pyWs d) [d] tail = runsAux false [d] tail
          rw [hd]
        rw [htail, runsAux_true_sp d tail hd, ← hruns, ih hws]
        show (cw.reverse ++ [c]).reverse :: [' '] :: spaced (v :: vs) =
          spaced ((c :: cw) :: v :: vs)
        simp [spaced]

/-! ## Lemmas about line assembly from taken chunks -/

theorem chunksOfTaken_cons (v : List Char) (tv : List (List Char)) (b : Bool) :
    chunksOfTaken (v :: tv) b = [' '] :: v :: chunksOfTaken tv b := by
  simp [chunksOfTaken]

theorem dropTrailingWs_cons₂ (a b : List Char) (l : List (List Char)) :
    dropTrailingWs (a :: b :: l) = a :: dropTrailingWs (b :: l) := by
  simp only [dropTrailingWs, List.getLast?_cons_cons]
  cases h : (b :: l).getLast? with
  | none => exact absurd h (by simp)
  | some u =>
    by_cases hu : isWsChunk u = true
    · simp [hu, List.dropLast]
    · simp [hu]

theorem dropTrailing_chunks {w : List Char} {tw : List (List Char)}
    (hw : goodWord w) (htw : goodWords tw) :
    dropTrailingWs (w :: chunksOfTaken tw true) = w :: chunksOfTaken tw false ∧
    dropTrailingWs (w :: chunksOfTaken tw false) = w :: chunksOfTaken tw false := by
  induction tw generalizing w with
  | nil =>
    constructor
    · show dropTrailingWs [w, [' ']] = [w]
      simp [dropTrailingWs, isWsChunk, pyWs]
    · show dropTrailingWs [w] = [w]
      simp [dropTrailingWs, goodWord_not_wsChunk hw]
  | cons v tv ih =>
    have hv : goodWord v := htw v (by simp)
    have htv : goodWords tv := fun u hu => htw u (by simp [hu])
    constructor
    · rw [chunksOfTaken_cons, dropTrailingWs_cons₂, dropTrailingWs_cons₂,
        (ih hv htv).1, chunksOfTaken_cons]
    · rw [chunksOfTaken_cons, dropTrailingWs_cons₂, dropTrailingWs_cons₂,
        (ih hv htv).2]

theorem flatten_line (w : List Char) (tw : List (List Char)) :
    (w :: chunksOfTaken tw false).flatten = joinSp (w :: tw) := by
  induction tw generalizing w with
  | nil => simp [chunksOfTaken, joinSp]
  | cons v tv ih =>
    rw [chunksOfTaken_cons]
    show w ++ ([' '] ++ (v :: chunksOfTaken tv false).flatten) = joinSp (w :: v :: tv)
    rw [ih v]
    rfl

end GeminiCli

namespace GeminiCli

/-! ## Step equations for the loop workers -/

theorem takeFit_nil (width curLen : Nat) : takeFit width curLen [] = ([], []) := rfl

theorem takeFit_cons (width curLen : Nat) (c : List Char) (cs : List (List Char)) :
    takeFit width curLen (c :: cs) =
      if curLen + c.length ≤ width then
        (c :: (takeFit width (curLen + c.length) cs).1,
          (takeFit width (curLen + c.length) cs).2)
      else ([], c :: cs) := by
  by_cases h : curLen + c.length ≤ width <;> simp [takeFit, h]

theorem fitWords_nil (width curLen : Nat) : fitWords width curLen [] = ([], []) := rfl

theorem fitWords_cons (width curLen : Nat) (w : List Char) (ws : List (List Char)) :
    fitWords width curLen (w :: ws) =
      if curLen + 1 + w.length ≤ width then
        (w :: (fitWords width (curLen + 1 + w.length) ws).1,
          (fitWords width (curLen + 1 + w.length) ws).2)
      else ([], w :: ws) := by
  by_cases h : curLen + 1 + w.length ≤ width <;> simp [fitWords, h]

theorem fitWords_append (width : Nat) :
    ∀ (l : List (List Char)) (curLen : Nat),
      (fitWords width curLen l).1 ++ (fitWords width curLen l).2 = l := by
  intro l
  induction l with
  | nil => intro curLen; rfl
  | cons w ws ih =>
    intro curLen
    by_cases h : curLen + 1 + w.length ≤ width
    · simp [fitWords_cons, h, ih]
    · simp [fitWords_cons, h]

theorem fitWords_overlong {width curLen : Nat} (h : width < curLen) (l : List (List Char)) :
    fitWords width curLen l = ([], l) := by
  cases l with
  | nil => rfl
  | cons w ws =>
    have hc : ¬ curLen + 1 + w.length ≤ width := by omega
    simp [fitWords_cons, hc]

theorem handleLong_cur_ne {width : Nat} {cur : List (List Char)} (h : cur ≠ [])
    (rest : List (List Char)) : handleLong width cur rest = (cur, rest) := by
  cases rest with
  | nil => rfl
  | cons c cs => simp [handleLong, h]

theorem chunksOfTaken_nil (b : Bool) :
    chunksOfTaken [] b = if b then [[' ']] else [] := by
  cases b <;> simp [chunksOfTaken]

theorem dropTrailingWs_single {w : List Char} (h : isWsChunk w = false) :
    dropTrailingWs [w] = [w] := by
  simp [dropTrailingWs, h]

theorem greedyPartition_nil (width : Nat) : greedyPartition width [] = [] := by
  simp [greedyPartition]

theorem greedyPartition_cons (width : Nat) (w : List Char) (ws : List (List Char)) :
    greedyPartition width (w :: ws) =
      (w :: (fitWords width w.length ws).1) ::
        greedyPartition width (fitWords width w.length ws).2 := by
  simp [greedyPartition]

theorem wrapChunks_nil (width : Nat) (b : Bool) : wrapChunks width b [] = [] := by
  simp [wrapChunks]

theorem wrapChunks_cons (width : Nat) (b : Bool) (c : List Char) (cs : List (List Char)) :
    wrapChunks width b (c :: cs) =
      if (wrapIter width (if b && isWsChunk c then cs else c :: cs)).1 = [] then
        wrapChunks width b (wrapIter width (if b && isWsChunk c then cs else c :: cs)).2
      else
        (wrapIter width (if b && isWsChunk c then cs else c :: cs)).1.flatten ::
          wrapChunks width true
            (wrapIter width (if b && isWsChunk c then cs else c :: cs)).2 := by
  rw [wrapChunks]

/-! ## The walk lemma: the inner `while` on a spaced word list agrees with
the word-level greedy take -/

theorem takeFit_sepSp {width : Nat} :
    ∀ (ws : List (List Char)) (cur : Nat), goodWords ws → 0 < cur →
      ∃ extraSp : Bool,
        takeFit width cur (sepSp ws) =
          (chunksOfTaken (fitWords width cur ws).1 extraSp,
           if extraSp then spaced (fitWords width cur ws).2
           else sepSp (fitWords width cur ws).2) := by
  intro ws
  induction ws with
  | nil =>
    intro cur hg hc
    exact ⟨false, by simp [sepSp, takeFit_nil, fitWords_nil, chunksOfTaken]⟩
  | cons v ws ih =>
    intro cur hg hc
    have hv : goodWord v := hg v (by simp)
    have hws' : goodWords ws := fun u hu => hg u (by simp [hu])
    have hshape : sepSp (v :: ws) = [' '] :: v :: sepSp ws := by
      show [' '] :: spaced (v :: ws) = [' '] :: v :: sepSp ws
      rw [spaced_cons]
    by_cases h1 : cur + 1 ≤ width
    · by_cases h2 : cur + 1 + v.length ≤ width
      · obtain ⟨b, hb⟩ := ih (cur + 1 + v.length) hws' (by omega)
        refine ⟨b, ?_⟩
        rw [hshape, takeFit_cons]
        have hc1 : cur + ([' '] : List Char).length ≤ width := by
          simpa using h1
        rw [if_pos hc1, takeFit_cons]
        have hc2 : cur + ([' '] : List Char).length + v.length ≤ width := by
          simpa using h2
        rw [if_pos hc2]
        have harith : cur + ([' '] : List Char).length + v.length = cur + 1 + v.length := by
          simp
        rw [harith, hb, fitWords_cons, if_pos h2, chunksOfTaken_cons]
      · refine ⟨true, ?_⟩
        rw [hshape, takeFit_cons]
        have hc1 : cur + ([' '] : List Char).length ≤ width := by
          simpa using h1
        rw [if_pos hc1, takeFit_cons]
        have hc2 : ¬ (cur + ([' '] : List Char).length + v.length ≤ width) := by
          simpa using h2
        rw [if_neg hc2, fitWords_cons, if_neg h2]
        rw [chunksOfTaken_nil]
        rw [spaced_cons]
        simp
    · have h2 : ¬ (cur + 1 + v.length ≤ width) := by omega
      refine ⟨false, ?_⟩
      rw [hshape, takeFit_cons]
      have hc1 : ¬ (cur + ([' '] : List Char).length ≤ width) := by
        simpa using h1
      rw [if_neg hc1, fitWords_cons, if_neg h2, chunksOfTaken_nil]
      rw [hshape]
      simp

end GeminiCli

namespace GeminiCli

/-! ## The refinement: `_wrap_chunks` on spaced words is the greedy
word-level partition -/

theorem fitWords_snd_len (width curLen : Nat) (l : List (List Char)) :
    (fitWords width curLen l).1.length + (fitWords width curLen l).2.length = l.length := by
  have h := congrArg List.length (fitWords_append width l curLen)
  simpa [List.length_append] using h

theorem wrapChunks_drop_leading {width : Nat} {w : List Char} {rest : List (List Char)}
    (h : isWsChunk w = false) :
    wrapChunks width true ([' '] :: w :: rest) = wrapChunks width true (w :: rest) := by
  rw [wrapChunks_cons, wrapChunks_cons]
  have h1 : ((true : Bool) && isWsChunk [' ']) = true := by simp [isWsChunk, pyWs]
  have h2 : ((true : Bool) && isWsChunk w) = false := by simp [h]
  rw [h1, h2]
  simp

theorem wrapChunks_spaced (width : Nat) :
    ∀ (n : Nat) (ws : List (List Char)), ws.length ≤ n → goodWords ws →
      (∀ b, wrapChunks width b (spaced ws) = (greedyPartition width ws).map joinSp) ∧
      (wrapChunks width true (sepSp ws) = (greedyPartition width ws).map joinSp) := by
  intro n
  induction n with
  | zero =>
    intro ws hlen hg
    have hws : ws = [] := List.length_eq_zero.mp (Nat.le_zero.mp hlen)
    subst hws
    exact ⟨fun b => by rw [show spaced ([] : List (List Char)) = [] from rfl,
        wrapChunks_nil, greedyPartition_nil]; rfl,
      by rw [show sepSp ([] : List (List Char)) = [] from rfl,
        wrapChunks_nil, greedyPartition_nil]; rfl⟩
  | succ n ih =>
    intro ws hlen hg
    cases ws with
    | nil =>
      exact ⟨fun b => by rw [show spaced ([] : List (List Char)) = [] from rfl,
          wrapChunks_nil, greedyPartition_nil]; rfl,
        by rw [show sepSp ([] : List (List Char)) = [] from rfl,
          wrapChunks_nil, greedyPartition_nil]; rfl⟩
    | cons w ws' =>
      have hgw : goodWord w := hg w (by simp)
      have hg' : goodWords ws' := fun u hu => hg u (by simp [hu])
      have hlen' : ws'.length ≤ n := by simpa using hlen
      have hnws : isWsChunk w = false := goodWord_not_wsChunk hgw
      have hwpos : 0 < w.length := List.length_pos.mpr hgw.1
      have main : ∀ b, wrapChunks width b (spaced (w :: ws')) =
          (greedyPartition width (w :: ws')).map joinSp := by
        intro b
        rw [spaced_cons, wrapChunks_cons]
        have hb1 : (b && isWsChunk w) = false := by simp [hnws]
        rw [hb1]
        simp only [Bool.false_eq_true, if_false]
        by_cases hfit : w.length ≤ width
        · obtain ⟨b', hb'⟩ := takeFit_sepSp ws' w.length hg' hwpos
          have happ : (fitWords width w.length ws').1 ++ (fitWords width w.length ws').2
              = ws' := fitWords_append width ws' w.length
          have hgtw : goodWords (fitWords width w.length ws').1 := fun u hu =>
            hg' u (by rw [← happ]; exact List.mem_append_left _ hu)
          have hgrw : goodWords (fitWords width w.length ws').2 := fun u hu =>
            hg' u (by rw [← happ]; exact List.mem_append_right _ hu)
          have hlrw : (fitWords width w.length ws').2.length ≤ n := by
            have h2 := fitWords_snd_len width w.length ws'
            omega
          have htake : takeFit width 0 (w :: sepSp ws') =
              (w :: chunksOfTaken (fitWords width w.length ws').1 b',
               if b' then spaced (fitWords width w.length ws').2
               else sepSp (fitWords width w.length ws').2) := by
            rw [takeFit_cons, if_pos (by omega : 0 + w.length ≤ width), Nat.zero_add, hb']
          have hwrapIter : wrapIter width (w :: sepSp ws') =
              (w :: chunksOfTaken (fitWords width w.length ws').1 false,
               if b' then spaced (fitWords width w.length ws').2
               else sepSp (fitWords width w.length ws').2) := by
            simp only [wrapIter]
            rw [htake]
            dsimp only
            rw [handleLong_cur_ne (by simp)]
            dsimp only
            cases b'
            · rw [(dropTrailing_chunks hgw hgtw).2]
            · rw [(dropTrailing_chunks hgw hgtw).1]
          rw [hwrapIter]
          dsimp only
          rw [if_neg (by simp : ¬ (w :: chunksOfTaken (fitWords width w.length ws').1 false = []))]
          rw [flatten_line]
          rw [greedyPartition_cons, List.map_cons]
          refine congrArg₂ (· :: ·) rfl ?_
          cases b'
          · simp only [Bool.false_eq_true, if_false]
            exact (ih (fitWords width w.length ws').2 hlrw hgrw).2
          · simp only [if_true]
            exact (ih (fitWords width w.length ws').2 hlrw hgrw).1 true
        · have hlw : width < w.length := by omega
          have htake : takeFit width 0 (w :: sepSp ws') = ([], w :: sepSp ws') := by
            rw [takeFit_cons, if_neg (by omega)]
          have hwrapIter : wrapIter width (w :: sepSp ws') = ([w], sepSp ws') := by
            simp only [wrapIter]
            rw [htake]
            dsimp only
            have hhl : handleLong width [] (w :: sepSp ws') = ([w], sepSp ws') := by
              simp [handleLong, hlw]
            rw [hhl]
            dsimp only
            exact congrArg₂ Prod.mk (dropTrailingWs_single hnws) rfl
          rw [hwrapIter]
          dsimp only
          rw [if_neg (by simp : ¬ (([w] : List (List Char)) = []))]
          have hline : ([w] : List (List Char)).flatten = joinSp [w] := by simp [joinSp]
          rw [hline]
          rw [greedyPartition_cons, fitWords_overlong hlw, List.map_cons]
          exact congrArg₂ (· :: ·) rfl ((ih ws' hlen' hg').2)
      refine ⟨main, ?_⟩
      have hsh : sepSp (w :: ws') = [' '] :: w :: sepSp ws' := by
        show [' '] :: spaced (w :: ws') = _
        rw [spaced_cons]
      rw [hsh, wrapChunks_drop_leading hnws, ← spaced_cons]
      exact main true

theorem wrapChunks_eq_greedy {width : Nat} {ws : List (List Char)} (hg : goodWords ws)
    (b : Bool) :
    wrapChunks width b (spaced ws) = (greedyPartition width ws).map joinSp :=
  (wrapChunks_spaced width ws.length ws le_rfl hg).1 b

end GeminiCli

namespace GeminiCli

/-! ## `safe_print` as the greedy word-level partition -/

theorem safePrint_eq_greedy {width : Nat} (hw : 0 < width) (text : List Char) :
    safePrintLines width text =
      some (((greedyPartition width (splitWs text)).map joinSp)) := by
  have hg := goodWords_splitWs text
  have hchars := chars_joinSp hg
  have hnotab : ∀ c ∈ joinSp (splitWs text), c ≠ '\t' := by
    intro c hc he
    rcases hchars c hc with h | h
    · subst he; simp [pyWs] at h
    · subst h; exact absurd he (by decide)
  unfold safePrintLines
  rw [if_neg (by omega), padLongWords_id, expandTabs_id hnotab,
    replaceWs_id hchars, runs_joinSp hg, wrapChunks_eq_greedy hg]

/-! ## Properties of the greedy partition -/

theorem mapSelf {α : Type} {f : α → α} :
    ∀ (l : List α), (∀ a ∈ l, f a = a) → l.map f = l := by
  intro l
  induction l with
  | nil => intro _; rfl
  | cons a l ih =>
    intro h
    simp only [List.map_cons, h a (by simp), ih (fun x hx => h x (by simp [hx]))]

theorem greedyPartition_flatten (width : Nat) :
    ∀ (n : Nat) (ws : List (List Char)), ws.length ≤ n →
      (greedyPartition width ws).flatten = ws := by
  intro n
  induction n with
  | zero =>
    intro ws hlen
    have hws : ws = [] := List.length_eq_zero.mp (Nat.le_zero.mp hlen)
    subst hws
    simp [greedyPartition_nil]
  | succ n ih =>
    intro ws hlen
    cases ws with
    | nil => simp [greedyPartition_nil]
    | cons w ws' =>
      rw [greedyPartition_cons]
      have hsum := fitWords_snd_len width w.length ws'
      have hlen2 : (fitWords width w.length ws').2.length ≤ n := by
        simp only [List.length_cons] at hlen
        omega
      simp only [List.flatten_cons]
      rw [ih _ hlen2]
      rw [List.cons_append, fitWords_append width ws' w.length]

theorem fitWords_mem_fst (width : Nat) :
    ∀ (l : List (List Char)) (cur : Nat) (v : List Char),
      v ∈ (fitWords width cur l).1 → v.length + 1 ≤ width := by
  intro l
  induction l with
  | nil => intro cur v h; simp [fitWords_nil] at h
  | cons w ws ih =>
    intro cur v h
    by_cases hc : cur + 1 + w.length ≤ width
    · rw [fitWords_cons, if_pos hc] at h
      rcases List.mem_cons.mp h with h | h
      · subst h; omega
      · exact ih _ v h
    · rw [fitWords_cons, if_neg hc] at h
      simp at h

theorem fitWords_sum_bound (width : Nat) :
    ∀ (l : List (List Char)) (cur : Nat), cur ≤ width →
      cur + ((fitWords width cur l).1.map (fun v => v.length + 1)).sum ≤ width := by
  intro l
  induction l with
  | nil => intro cur h; simpa [fitWords_nil] using h
  | cons w ws ih =>
    intro cur h
    by_cases hc : cur + 1 + w.length ≤ width
    · rw [fitWords_cons, if_pos hc]
      have h2 := ih (cur + 1 + w.length) hc
      simp only [List.map_cons, List.sum_cons]
      omega
    · rw [fitWords_cons, if_neg hc]
      simpa using h

theorem joinSp_len_eq : ∀ (tw : List (List Char)) (w : List Char),
    (joinSp (w :: tw)).length = w.length + (tw.map (fun v => v.length + 1)).sum := by
  intro tw
  induction tw with
  | nil => intro w; simp [joinSp]
  | cons v tv ih =>
    intro w
    show (w ++ ' ' :: joinSp (v :: tv)).length = _
    rw [List.length_append]
    simp only [List.length_cons, List.map_cons, List.sum_cons]
    rw [ih v]
    omega

theorem greedy_block_shape (width : Nat) :
    ∀ (n : Nat) (ws : List (List Char)), ws.length ≤ n →
      ∀ blk ∈ greedyPartition width ws, blk ≠ [] ∧
        ((joinSp blk).length ≤ width ∨ ∃ u, blk = [u] ∧ width < u.length) := by
  intro n
  induction n with
  | zero =>
    intro ws hlen blk hblk
    have hws : ws = [] := List.length_eq_zero.mp (Nat.le_zero.mp hlen)
    subst hws
    simp [greedyPartition_nil] at hblk
  | succ n ih =>
    intro ws hlen blk hblk
    cases ws with
    | nil => simp [greedyPartition_nil] at hblk
    | cons w ws' =>
      rw [greedyPartition_cons] at hblk
      have hlen2 : (fitWords width w.length ws').2.length ≤ n := by
        have hsum := fitWords_snd_len width w.length ws'
        simp only [List.length_cons] at hlen
        omega
      rcases List.mem_cons.mp hblk with hblk | hblk
      · subst hblk
        refine ⟨by simp, ?_⟩
        by_cases hfit : w.length ≤ width
        · left
          rw [joinSp_len_eq]
          have h2 := fitWords_sum_bound width ws' w.length hfit
          omega
        · right
          rw [fitWords_overlong (by omega)]
          exact ⟨w, rfl, by omega⟩
      · exact ih _ hlen2 blk hblk

theorem greedy_overlong_mem (width : Nat) :
    ∀ (n : Nat) (ws : List (List Char)), ws.length ≤ n →
      ∀ u ∈ ws, width < u.length → [u] ∈ greedyPartition width ws := by
  intro n
  induction n with
  | zero =>
    intro ws hlen u hu
    have hws : ws = [] := List.length_eq_zero.mp (Nat.le_zero.mp hlen)
    subst hws
    simp at hu
  | succ n ih =>
    intro ws hlen u hu hlong
    cases ws with
    | nil => simp at hu
    | cons w ws' =>
      rw [greedyPartition_cons]
      have hlen2 : (fitWords width w.length ws').2.length ≤ n := by
        have hsum := fitWords_snd_len width w.length ws'
        simp only [List.length_cons] at hlen
        omega
      rcases List.mem_cons.mp hu with hu | hu
      · subst hu
        rw [fitWords_overlong hlong]
        exact List.mem_cons_self _ _
      · have happ := fitWords_append width ws' w.length
        rw [← happ] at hu
        rcases List.mem_append.mp hu with hu | hu
        · exact absurd (fitWords_mem_fst width ws' w.length u hu) (by omega)
        · exact List.mem_cons_of_mem _ (ih _ hlen2 u hu hlong)

theorem greedy_blocks_sub (width : Nat) (ws : List (List Char)) :
    ∀ blk ∈ greedyPartition width ws, ∀ u ∈ blk, u ∈ ws := by
  intro blk hblk u hu
  have h := greedyPartition_flatten width ws.length ws le_rfl
  rw [← h]
  exact List.mem_flatten.mpr ⟨blk, hblk, hu⟩

/-- Evaluation of `safe_print` at the spec's own example: width 10 and the
text "a very-long-single-token-exceeding-width". -/
theorem safePrint_pad_example :
    safePrintLines 10 ("a very-long-single-token-exceeding-width".data) =
      some ["a".data, "very-long-single-token-exceeding-width".data] := by
  rw [safePrint_eq_greedy (by decide)]
  have h1 : splitWs ("a very-long-single-token-exceeding-width".data) =
      ["a".data, "very-long-single-token-exceeding-width".data] := by decide
  rw [h1]
  simp [greedyPartition_cons, greedyPartition_nil, fitWords_cons, fitWords_nil, joinSp]

end GeminiCli

namespace GeminiCli

/-! ## Theorems about the presenter -/

/-- C2 counterexample: at width 10, `safe_print` of
"a very-long-single-token-exceeding-width" emits the 38-character token on
its own line with its full 38 characters — no line of the output has
length exactly 10, so the overlong word is not right-padded out to the
column width (the computed pad `" " * (10 - 38)` is empty). -/
theorem safePrint_no_padding_counterexample :
    safePrintLines 10 ("a very-long-single-token-exceeding-width".data) =
      some ["a".data, "very-long-single-token-exceeding-width".data] ∧
    ("very-long-single-token-exceeding-width".data).length = 38 ∧
    ¬ ∃ l ∈ (["a".data, "very-long-single-token-exceeding-width".data] : List (List Char)),
        l.length = 10 :=
  ⟨safePrint_pad_example, by decide, by decide⟩

/-- C2 (amended): for every text and positive column width, a single word
whose length exceeds the width is emitted on its own output line,
unchanged — no characters are dropped and also no padding is added, since
the `pad_long_words` preprocessing computes `" " * (width - len(word))`
with a negative multiplier, which is the empty string (so
`padLongWords` is the identity). -/
theorem safePrint_overlong_own_line (width : Nat) (text : List Char) (hw : 0 < width)
    (u : List Char) (hu : u ∈ splitWs text) (hlong : width < u.length)
    (lines : List (List Char)) (hl : safePrintLines width text = some lines) :
    u ∈ lines ∧ padLongWords width (splitWs text) = splitWs text := by
  refine ⟨?_, padLongWords_id width _⟩
  have heq := safePrint_eq_greedy hw text
  rw [hl] at heq
  have hlines : lines = (greedyPartition width (splitWs text)).map joinSp :=
    Option.some.inj heq
  subst hlines
  have hm := greedy_overlong_mem width (splitWs text).length (splitWs text) le_rfl u hu hlong
  have hj : joinSp [u] = u := rfl
  exact hj ▸ List.mem_map_of_mem joinSp hm

/-- C2 witness: at the spec's example input and width 10 the overlong
token is one of the output lines, unchanged. -/
theorem safePrint_overlong_own_line_witness :
    ("very-long-single-token-exceeding-width".data) ∈
      (["a".data, "very-long-single-token-exceeding-width".data] : List (List Char)) ∧
    padLongWords 10 (splitWs ("a very-long-single-token-exceeding-width".data)) =
      splitWs ("a very-long-single-token-exceeding-width".data) :=
  safePrint_overlong_own_line 10 _ (by decide) _ (by decide) (by decide) _
    safePrint_pad_example

/-- C7: for every text and positive column width, `safe_print` cuts the
word sequence of the text into consecutive blocks, each output line being
the space-join of one block — so every break falls on a whitespace
boundary and no line ever breaks inside a word or at a hyphen — and each
line is no wider than the column width except when it consists of a
single word that is itself wider than the width. -/
theorem safePrint_wraps_word_boundaries (width : Nat) (text : List Char) (hw : 0 < width) :
    ∃ blocks : List (List (List Char)),
      blocks.flatten = splitWs text ∧
      safePrintLines width text = some (blocks.map joinSp) ∧
      ∀ blk ∈ blocks, blk ≠ [] ∧
        ((joinSp blk).length ≤ width ∨ ∃ u, blk = [u] ∧ width < u.length) :=
  ⟨greedyPartition width (splitWs text),
    greedyPartition_flatten width _ _ le_rfl,
    safePrint_eq_greedy hw text,
    fun blk hblk => greedy_block_shape width _ _ le_rfl blk hblk⟩

/-- C7 witness: instantiation at width 10 and "short words here". -/
theorem safePrint_wraps_word_boundaries_witness :
    ∃ blocks : List (List (List Char)),
      blocks.flatten = splitWs ("short words here".data) ∧
      safePrintLines 10 ("short words here".data) = some (blocks.map joinSp) ∧
      ∀ blk ∈ blocks, blk ≠ [] ∧
        ((joinSp blk).length ≤ 10 ∨ ∃ u, blk = [u] ∧ 10 < u.length) :=
  safePrint_wraps_word_boundaries 10 _ (by decide)

/-- C10: for every text and positive column width, the word sequence is
preserved and every whitespace run collapsed: splitting the concatenated
output lines on whitespace yields exactly the word sequence of the input
text (so the original line and paragraph structure is not preserved, only
the words). -/
theorem safePrint_preserves_words (width : Nat) (text : List Char) (hw : 0 < width)
    (lines : List (List Char)) (hl : safePrintLines width text = some lines) :
    splitWs (joinLines lines) = splitWs text := by
  have heq := safePrint_eq_greedy hw text
  rw [hl] at heq
  have hlines : lines = (greedyPartition width (splitWs text)).map joinSp :=
    Option.some.inj heq
  subst hlines
  rw [splitWs_joinLines, List.map_map]
  have hsub := greedy_blocks_sub width (splitWs text)
  have hg := goodWords_splitWs text
  have hmap : (greedyPartition width (splitWs text)).map (splitWs ∘ joinSp) =
      greedyPartition width (splitWs text) :=
    mapSelf _ (fun blk hblk =>
      splitWs_joinSp (fun u hu => hg u (hsub blk hblk u hu)))
  rw [hmap, greedyPartition_flatten width _ _ le_rfl]

/-- C10 witness: at width 7, "one  two\nthree" is reflowed to the lines
"one two" and "three"; splitting the concatenated output on whitespace
recovers exactly the input's words. -/
theorem safePrint_preserves_words_witness :
    splitWs (joinLines ["one two".data, "three".data]) =
      splitWs ("one  two\nthree".data) :=
  safePrint_preserves_words 7 _ (by decide) _ (by
    rw [safePrint_eq_greedy (by decide)]
    have h1 : splitWs ("one  two\nthree".data) = ["one".data, "two".data, "three".data] := by
      decide
    rw [h1]
    simp [greedyPartition_cons, greedyPartition_nil, fitWords_cons, fitWords_nil, joinSp])

end GeminiCli

namespace GeminiCli

/-! ## Witnesses instantiating the universally quantified theorems -/

/-- C3 witness: with the credential absent and a transport error waiting,
the call still returns the bare `ConfigError` trace, whose message is not
the transport wrapper. -/
theorem generate_missing_key_config_error_witness :
    generate_text none (.error (.transport "boom")) =
      ⟨.raised (.runtimeError configErrorMsg), false, false⟩ ∧
    configErrorMsg ≠ wrapMsg "boom" :=
  ⟨(generate_missing_key_config_error (.error (.transport "boom"))).1,
   (generate_missing_key_config_error (.error (.transport "boom"))).2.2 "boom"⟩

/-- C4 witness: three of the degenerate shapes evaluated concretely. -/
theorem extract_total_and_degenerate_shapes_witness :
    extractFirstText ⟨none, none⟩ = none ∧
    extractFirstText ⟨some [], none⟩ = none ∧
    extractFirstText ⟨some [{ content := none }], none⟩ = none :=
  ⟨extract_total_and_degenerate_shapes.2.1 none,
   extract_total_and_degenerate_shapes.2.2.1 none,
   extract_total_and_degenerate_shapes.2.2.2.1 none []⟩

/-- C5 witness: a concrete part text comes back verbatim, and truncating a
second candidate does not change the result. -/
theorem extract_first_verbatim_and_first_only_witness :
    extractFirstText
      ⟨some [{ content := some ⟨some [{ text := some (some "hello") }]⟩ }], none⟩
      = some "hello" ∧
    extractFirstText
      ⟨some [{ content := some ⟨some [{ text := some (some "x") }]⟩ },
             { content := none }], none⟩
      = extractFirstText (firstOnly
        ⟨some [{ content := some ⟨some [{ text := some (some "x") }]⟩ },
               { content := none }], none⟩) :=
  ⟨extract_first_verbatim_and_first_only.2.1 none [] [] "hello",
   extract_first_verbatim_and_first_only.1 _⟩

/-- C9 witness: the empty-string credential behaves like the absent one on
a concrete call. -/
theorem generate_empty_key_like_missing_witness :
    generate_text (some "") (.ok ⟨none, none⟩) = generate_text none (.ok ⟨none, none⟩) :=
  (generate_empty_key_like_missing (.ok ⟨none, none⟩)).1

end GeminiCli
